import Mathlib

/-!
Verification of the market dashboard's data pipeline (src/streamlit_app.py).

The pipeline is embedded shallowly:
* Python strings are Lean `String`s (ASCII semantics for case mapping);
* a pandas column restricted to the selected date window is a
  `List (Option ℚ)` — `none` is a gap (NaN), `some v` a recorded price;
* a Python dict is an association list in insertion order, read by
  `dictGet`, which returns the value of the LAST binding of a key
  (later insertions overwrite earlier ones).
-/

namespace Market

/-! ### Python string primitives -/

/-- Whitespace characters recognised by Python's `str.split()` / `str.strip()`
(ASCII subset). -/
def isPySpace (c : Char) : Bool :=
  c = ' ' || c = '\t' || c = '\n' || c = '\r' || c = '\x0b' || c = '\x0c'

/-- Remove the characters satisfying `p` from both ends of a character list:
the common core of Python's `str.strip()` and `str.strip(chars)`. -/
def stripChars (p : Char → Bool) (cs : List Char) : List Char :=
  ((cs.dropWhile p).reverse.dropWhile p).reverse

/-- Python `s.strip()`. -/
def pyStrip (s : String) : String :=
  String.mk (stripChars isPySpace s.toList)

/-- Python `s.strip('"')`. -/
def pyStripQuote (s : String) : String :=
  String.mk (stripChars (fun c => c = '"') s.toList)

/-- Python `s.lower()` (ASCII case mapping). -/
def pyLower (s : String) : String :=
  String.mk (s.toList.map Char.toLower)

/-- Python `s.upper()` (ASCII case mapping); only used to state what the
spec asks for, the source never upper-cases. -/
def pyUpper (s : String) : String :=
  String.mk (s.toList.map Char.toUpper)

/-- Worker for `pySplit`: `acc` holds the current word reversed. -/
def wordsAux : List Char → List Char → List (List Char)
  | [], acc => if acc.isEmpty then [] else [acc.reverse]
  | c :: cs, acc =>
    if isPySpace c then
      if acc.isEmpty then wordsAux cs [] else acc.reverse :: wordsAux cs []
    else wordsAux cs (c :: acc)

/-- Python `s.split()`: split on whitespace runs, discarding empty pieces. -/
def pySplit (s : String) : List String :=
  (wordsAux s.toList []).map String.mk

/-- Interleave a single space between the given words. -/
def joinSpace : List (List Char) → List Char
  | [] => []
  | [w] => w
  | w :: ws => w ++ ' ' :: joinSpace ws

/-- Python `' '.join(l)`. -/
def pyJoinSpace (l : List String) : String :=
  String.mk (joinSpace (l.map String.toList))

/-! ### Name normalizer (src/streamlit_app.py lines 265-273) -/

/-- `item_clean = ' '.join(item.split())` (line 265). -/
def item_clean (item : String) : String :=
  pyJoinSpace (pySplit item)

/-- The `item_variants` list built in `main` (lines 266-273), in source
order: `item`, `item_clean`, `item_clean.lower()`, `item.strip('"')`,
`item.strip().strip('"')`, `item.lower().strip()`. -/
def item_variants (item : String) : List String :=
  [ item,
    item_clean item,
    pyLower (item_clean item),
    pyStripQuote item,
    pyStripQuote (pyStrip item),
    pyStrip (pyLower item) ]

/-- Modelled from the spec: the variant sequence §4.1 requires — raw,
normalized, normalized upper-cased, normalized lower-cased, raw
quote-stripped, raw trimmed-then-quote-stripped. Used only to compare
the source's `item_variants` against the specified sequence. -/
def spec_item_variants (item : String) : List String :=
  [ item,
    item_clean item,
    pyUpper (item_clean item),
    pyLower (item_clean item),
    pyStripQuote item,
    pyStripQuote (pyStrip item) ]

/-! ### Whitespace collapsing, stated directly

`item_clean` is split-then-join; the claims describe it as "whitespace
runs collapsed to single spaces".  `collapseWs` is that direct
description, and `item_clean_eq_collapse` proves the two agree. -/

/-- One pass over the characters; `pending` records whether a whitespace
run is waiting to be emitted as a single space before the next word. -/
def collapseGo : Bool → List Char → List Char
  | _, [] => []
  | pending, c :: cs =>
    if isPySpace c then collapseGo true cs
    else if pending then ' ' :: c :: collapseGo false cs
    else c :: collapseGo false cs

/-- Collapse internal whitespace runs to single spaces and drop
leading/trailing whitespace. -/
def collapseWs (cs : List Char) : List Char :=
  collapseGo false (cs.dropWhile isPySpace)

lemma toList_mk (cs : List Char) : (String.mk cs).toList = cs := rfl

lemma collapseGo_true (cs : List Char) :
    collapseGo true cs =
      if (cs.dropWhile isPySpace).isEmpty then []
      else ' ' :: collapseGo false (cs.dropWhile isPySpace) := by
  induction cs with
  | nil => simp [collapseGo]
  | cons c cs ih =>
    by_cases h : isPySpace c
    · simpa [collapseGo, h, List.dropWhile_cons] using ih
    · simp [collapseGo, h, List.dropWhile_cons]

lemma wordsAux_acc_ne_nil (cs : List Char) :
    ∀ acc, acc ≠ [] → wordsAux cs acc ≠ [] := by
  induction cs with
  | nil => intro acc h; simp [wordsAux, h]
  | cons c cs ih =>
    intro acc h
    by_cases hc : isPySpace c
    · simp [wordsAux, hc, h]
    · exact by simpa [wordsAux, hc] using ih (c :: acc) (by simp)

lemma wordsAux_nil_iff (cs : List Char) :
    wordsAux cs [] = [] ↔ cs.dropWhile isPySpace = [] := by
  induction cs with
  | nil => simp [wordsAux]
  | cons c cs ih =>
    by_cases hc : isPySpace c
    · simpa [wordsAux, hc, List.dropWhile_cons] using ih
    · simp only [wordsAux, hc, List.dropWhile_cons, if_neg, Bool.false_eq_true,
        if_false, List.isEmpty_nil, if_true]
      constructor
      · intro h; exact absurd h (wordsAux_acc_ne_nil cs [c] (by simp))
      · intro h; simp at h

lemma joinSpace_wordsAux (cs : List Char) :
    ∀ acc, joinSpace (wordsAux cs acc) =
      if acc.isEmpty then collapseWs cs
      else acc.reverse ++ collapseGo false cs := by
  induction cs with
  | nil =>
    intro acc
    cases acc with
    | nil => simp [wordsAux, joinSpace, collapseWs, collapseGo]
    | cons a as => simp [wordsAux, joinSpace, collapseGo]
  | cons c cs ih =>
    intro acc
    by_cases hc : isPySpace c
    · cases acc with
      | nil =>
        simpa [wordsAux, hc, collapseWs, List.dropWhile_cons] using ih []
      | cons a as =>
        have hrest := ih []
        simp only [List.isEmpty_nil, if_true] at hrest
        simp only [wordsAux, hc, if_true, List.isEmpty_cons, if_false,
          Bool.false_eq_true]
        rcases hw : wordsAux cs [] with _ | ⟨w, ws⟩
        · have hdrop : cs.dropWhile isPySpace = [] := (wordsAux_nil_iff cs).mp hw
          simp [joinSpace, collapseGo, hc, collapseGo_true, hdrop]
        · have hne : ¬ (cs.dropWhile isPySpace).isEmpty := by
            intro hemp
            have : wordsAux cs [] = [] :=
              (wordsAux_nil_iff cs).mpr (List.isEmpty_iff.mp hemp)
            rw [this] at hw; exact List.noConfusion hw
          have : joinSpace ((a :: as).reverse :: w :: ws) =
              (a :: as).reverse ++ ' ' :: joinSpace (w :: ws) := by
            simp [joinSpace]
          rw [this, ← hw, hrest]
          simp [collapseGo, hc, collapseGo_true, hne, collapseWs]
    · cases acc with
      | nil =>
        have := ih [c]
        simp only [List.isEmpty_cons, if_false, Bool.false_eq_true] at this
        simp only [wordsAux, hc, if_neg, Bool.false_eq_true, if_false,
          List.isEmpty_nil, if_true, this, collapseWs, List.dropWhile_cons]
        simp [collapseGo, hc]
      | cons a as =>
        have := ih (c :: a :: as)
        simp only [List.isEmpty_cons, if_false, Bool.false_eq_true] at this
        simp only [wordsAux, hc, if_neg, Bool.false_eq_true, if_false,
          List.isEmpty_cons, this, collapseGo]
        simp

/-- The source's split-then-join normalisation is exactly "collapse
whitespace runs to single spaces, trim the ends". -/
theorem item_clean_eq_collapse (item : String) :
    item_clean item = String.mk (collapseWs item.toList) := by
  have h := joinSpace_wordsAux item.toList []
  simp only [List.isEmpty_nil, if_true] at h
  calc item_clean item
      = String.mk (joinSpace (wordsAux item.toList [])) := by
        simp [item_clean, pyJoinSpace, pySplit, List.map_map, Function.comp_def,
          toList_mk]
    _ = String.mk (collapseWs item.toList) := by rw [h]

/-! ### Time-series analytics (src/streamlit_app.py lines 55-69, 169-187,
209-211, 292-294)

A column of the date-filtered frame is a `List (Option ℚ)`; `dropna()` is
`List.filterMap id`. -/

/-- `get_last_valid_price` (lines 55-60): `df[item].dropna()`, then the
last element if any, else `None`. -/
def get_last_valid_price (xs : List (Option ℚ)) : Option ℚ :=
  (xs.filterMap id).getLast?

/-- The first valid price as computed inline in `main` (lines 172, 239):
`df[item].dropna().iloc[0] if not df[item].dropna().empty else None`. -/
def first_valid (xs : List (Option ℚ)) : Option ℚ :=
  (xs.filterMap id).head?

/-- `filtered_df[item].dropna().min() if not ... .empty else None`
(line 293); `List.min?` is `none` exactly on the empty list, matching
the guard. -/
def min_price (xs : List (Option ℚ)) : Option ℚ :=
  (xs.filterMap id).min?

/-- `filtered_df[item].dropna().max() if not ... .empty else None`
(line 294). -/
def max_price (xs : List (Option ℚ)) : Option ℚ :=
  (xs.filterMap id).max?

/-- `calculate_price_change` (lines 62-69): with at least two valid
prices, `((end - start) / start) * 100`; otherwise the sentinel `0`.
Under the length guard the `headD`/`getLastD` defaults are never used.
The source divides IEEE floats, so `start = 0` yields an infinity that
is still returned and rendered; over `ℚ` the quotient is the junk value
`0` — what is faithful is that a value is returned, never an absence. -/
def calculate_price_change (xs : List (Option ℚ)) : ℚ :=
  let valid := xs.filterMap id
  if 2 ≤ valid.length then
    ((valid.getLastD 0 - valid.headD 0) / valid.headD 0) * 100
  else 0

/-- The percent change displayed by `main` (lines 169-187): computed and
rendered whenever `start_price` and `end_price` are both non-`None`;
`none` means nothing is rendered.  As with `calculate_price_change`,
`start_price = 0` still produces a rendered value in the source. -/
def display_percent_change (xs : List (Option ℚ)) : Option ℚ :=
  match first_valid xs, get_last_valid_price xs with
  | some s, some e => some (((e - s) / s) * 100)
  | _, _ => none

/-- Modelled from the spec: `percentChange` is defined only when at least
two valid values exist and the first is nonzero; absent otherwise.  Used
only to compare the source against the specified behaviour. -/
def spec_percentChange (xs : List (Option ℚ)) : Option ℚ :=
  if 2 ≤ (xs.filterMap id).length then
    match first_valid xs, get_last_valid_price xs with
    | some s, some e => if s = 0 then none else some (((e - s) / s) * 100)
    | _, _ => none
  else none

/-- Reference scan for the claims' reading of `lastValid`: the last
non-gap cell, scanning backward. -/
def lastValidScan : List (Option ℚ) → Option ℚ
  | [] => none
  | x :: xs =>
    match lastValidScan xs with
    | some v => some v
    | none => x

/-- Reference scan for the claims' reading of `firstValid`: the first
non-gap cell, scanning forward. -/
def firstValidScan : List (Option ℚ) → Option ℚ
  | [] => none
  | none :: xs => firstValidScan xs
  | some v :: _ => some v

lemma getLast_filterMap_eq_scan (xs : List (Option ℚ)) :
    (xs.filterMap id).getLast? = lastValidScan xs := by
  induction xs with
  | nil => rfl
  | cons x xs ih =>
    cases x with
    | none =>
      have h1 : List.filterMap id (none :: xs) = List.filterMap id xs := by
        simp [List.filterMap_cons]
      rw [h1, ih]
      cases h : lastValidScan xs <;> simp [lastValidScan, h]
    | some v =>
      have h1 : List.filterMap id (some v :: xs) = v :: List.filterMap id xs := by
        simp [List.filterMap_cons]
      rw [h1]
      simp only [lastValidScan, ← ih]
      cases h : List.filterMap id xs with
      | nil => simp [h]
      | cons w ws =>
        rw [List.getLast?_cons_cons]
        cases hl : (w :: ws).getLast? with
        | none => simp at hl
        | some u => rfl

lemma head_filterMap_eq_scan (xs : List (Option ℚ)) :
    (xs.filterMap id).head? = firstValidScan xs := by
  induction xs with
  | nil => rfl
  | cons x xs ih =>
    cases x with
    | none => simpa [firstValidScan] using ih
    | some v => simp [firstValidScan]

/-! ### Moving average (src/streamlit_app.py lines 209-211)

`window = int(ma_period * 2)` — the source fixes two observations per
hour — and `filtered_df[item].rolling(window=window).mean()` with the
default `min_periods = window`: a position's trailing window must hold
`window` rows, all non-gap, otherwise the output there is NaN. -/

/-- The source's fixed observation cadence: two rows per hour. -/
def observations_per_hour : Nat := 2

/-- `window = int(ma_period * 2)` (line 210). -/
def ma_window (ma_period : Nat) : Nat := ma_period * observations_per_hour

/-- The trailing window of `w` rows ending at position `i` (0-based). -/
def windowSlice (w i : Nat) (xs : List (Option ℚ)) : List (Option ℚ) :=
  (xs.take (i + 1)).drop (i + 1 - w)

/-- All-or-nothing sequencing: `some` of the values when no cell is a
gap, otherwise `none`. -/
def seqOpt : List (Option ℚ) → Option (List ℚ)
  | [] => some []
  | none :: _ => none
  | some v :: rest => (seqOpt rest).map (fun l => v :: l)

/-- `series.rolling(window=w).mean()` (line 211): index-aligned with the
input; position `i` carries the mean of its trailing `w` rows when they
exist and none is a gap, and is a gap itself otherwise. -/
def rollingMean (w : Nat) (xs : List (Option ℚ)) : List (Option ℚ) :=
  (List.range xs.length).map (fun i =>
    if i + 1 < w then none
    else
      match seqOpt (windowSlice w i xs) with
      | some vs => some (vs.sum / (w : ℚ))
      | none => none)

lemma seqOpt_eq_none_iff (l : List (Option ℚ)) :
    seqOpt l = none ↔ none ∈ l := by
  induction l with
  | nil => simp [seqOpt]
  | cons x xs ih =>
    cases x with
    | none => simp [seqOpt]
    | some v =>
      simp only [seqOpt, List.mem_cons]
      cases hs : seqOpt xs with
      | none => simp [ih.mp hs]
      | some l =>
        have hng : ¬ none ∈ xs := fun hm => by
          rw [← ih, hs] at hm; exact Option.noConfusion hm
        simp [hng]

lemma seqOpt_of_no_gap (l : List (Option ℚ)) (h : ¬ none ∈ l) :
    seqOpt l = some (l.filterMap id) := by
  induction l with
  | nil => rfl
  | cons x xs ih =>
    cases x with
    | none => exact absurd (List.mem_cons_self _ _) h
    | some v =>
      have hx : ¬ none ∈ xs := fun hm => h (List.mem_cons_of_mem _ hm)
      simp [seqOpt, ih hx, List.filterMap_cons]

lemma rollingMean_getElem (w : Nat) (xs : List (Option ℚ)) (i : Nat)
    (hi : i < xs.length) :
    (rollingMean w xs)[i]? =
      some (if i + 1 < w then none
        else
          match seqOpt (windowSlice w i xs) with
          | some vs => some (vs.sum / (w : ℚ))
          | none => none) := by
  simp [rollingMean, List.getElem?_map, List.getElem?_range, hi]

/-! ### Python dicts and the source loaders
(src/streamlit_app.py lines 13-33, 43-52)

A dict is an association list in insertion order; `dictGet` returns the
value of the last binding, so appending a binding overwrites — Python's
`d[k] = v` / duplicate keys in `dict(zip(...))`. -/

/-- Python `d.get(k)` / `k in d`: the value of the LAST binding of `k`. -/
def dictGet {V : Type} (d : List (String × V)) (k : String) : Option V :=
  (d.reverse.find? (fun p => decide (p.1 = k))).map (fun p => p.2)

/-- The body of the `load_image_data` loop (lines 19-24): find the first
occurrence of `sub` in `cs`. Python `line.find(sub)`, as an `Option`. -/
def findSub (sub : List Char) : List Char → Option Nat
  | [] => if sub.isEmpty then some 0 else none
  | c :: cs =>
    if sub.isPrefixOf (c :: cs) then some 0
    else (findSub sub cs).map (fun i => i + 1)

/-- The literal scheme marker the loader searches for (line 20). -/
def httpsChars : List Char := ['h', 't', 't', 'p', 's', ':', '/', '/']

/-- One iteration of the `load_image_data` loop (lines 19-24): if
`"https://"` occurs, split the line at its first occurrence, trim both
pieces, and emit the pair; otherwise emit nothing. -/
def processLine (line : String) : Option (String × String) :=
  match findSub httpsChars line.toList with
  | some i =>
      some (String.mk (stripChars isPySpace (line.toList.take i)),
            String.mk (stripChars isPySpace (line.toList.drop i)))
  | none => none

/-- `load_image_data` (lines 13-33): skip the header line, run the loop
body over the rest, build the dict.  (File-read failures return `{}` in
the source; the input here is the line list of an existing file.) -/
def load_image_data : List String → List (String × String)
  | [] => []
  | _ :: rest => rest.filterMap processLine

/-- `load_supply_data` (lines 43-52): `dict(zip(df['Item Name'],
df['Estimated Supply']))` when the file exists (`some rows`), `{}` when
it is missing (`none`, the `FileNotFoundError` branch).  As a dict in
insertion order the row list is the table itself; `dictGet` makes later
duplicate keys win, as `dict(zip(...))` does. -/
def load_supply_data : Option (List (String × Int)) → List (String × Int)
  | none => []
  | some rows => rows

/-! ### Reconciliation in `main`
(src/streamlit_app.py lines 76, 119, 275-283, 295) -/

/-- The fallback image URL `default_img` (line 76). -/
def default_img : String := "https://i.ibb.co/tpZ9HsSY/photo-2023-12-23-09-42-33.jpg"

/-- The image-resolution loop (lines 275-283): try each variant in list
order, first hit wins, fall back to `default_img`. -/
def lookup_img (img_dict : List (String × String)) (item : String) : String :=
  match (item_variants item).findSome? (fun v => dictGet img_dict v) with
  | some u => u
  | none => default_img

/-- Every supply lookup in `main` (lines 119, 206, 295):
`supply_dict.get(item, 0)` — the raw column name only, no variants. -/
def resolve_supply (supply_dict : List (String × Int)) (item : String) : Int :=
  (dictGet supply_dict item).getD 0

/-- Modelled from the spec: a supply resolution that probes the table
with the normalizer variants in priority order, first hit wins, default
zero.  Used only to compare the source against the specified algorithm. -/
def spec_resolve_supply (supply_dict : List (String × Int)) (item : String) : Int :=
  ((item_variants item).findSome? (fun v => dictGet supply_dict v)).getD 0

/-- The per-item sidebar computation (lines 114-120): for every price
column, its percent change and its supply.  `cols` pairs each item name
with its price column. -/
def sidebar_entries (cols : List (String × List (Option ℚ)))
    (supply_dict : List (String × Int)) : List (String × ℚ × Int) :=
  cols.map (fun p => (p.1, calculate_price_change p.2, resolve_supply supply_dict p.1))

/-! ### Cache model (src/streamlit_app.py lines 12, 35, 43)

The three loaders are wrapped in `st.cache_data` (price history with
`ttl=60`).  The decorator itself is library code outside this
repository, so its behaviour is modelled from the spec §4.3. -/

/-- A cached value together with the wall-clock time it was produced. -/
structure CacheEntry (α : Type) where
  value : α
  loadedAt : Nat

/-- Modelled from the spec: one read against a per-source cache slot.
If a stored value exists and its age is below the TTL it is returned
unchanged with no load; otherwise the loader runs once and its result
replaces the entry.  Returns (served value, entry after the read,
number of loader invocations). -/
def cacheRead {α : Type} (ttl : Nat) (loader : Nat → α) (now : Nat) :
    Option (CacheEntry α) → α × CacheEntry α × Nat
  | some e =>
    if now - e.loadedAt < ttl then (e.value, e, 0)
    else (loader now, ⟨loader now, now⟩, 1)
  | none => (loader now, ⟨loader now, now⟩, 1)

/-! ### Helper lemmas on dicts, first-hit searches and substring search -/

lemma findSome?_of_first {α β : Type} (l : List α) (f : α → Option β) :
    ∀ (i : Nat) (v : α) (u : β), l[i]? = some v → f v = some u →
      (∀ j, j < i → ∀ w, l[j]? = some w → f w = none) →
      l.findSome? f = some u := by
  induction l with
  | nil => intro i v u h; simp at h
  | cons a l ih =>
    intro i v u hv hf hbefore
    cases i with
    | zero =>
      simp only [List.getElem?_cons_zero, Option.some.injEq] at hv
      subst hv
      rw [List.findSome?_cons, hf]
    | succ i =>
      have ha : f a = none := hbefore 0 (Nat.succ_pos i) a (by simp)
      simp only [List.getElem?_cons_succ] at hv
      rw [List.findSome?_cons, ha]
      exact ih i v u hv hf
        (fun j hj w hw => hbefore (j + 1) (Nat.succ_lt_succ hj) w (by simpa using hw))

lemma dictGet_append_last {V : Type} (d : List (String × V)) (k : String) (v : V) :
    dictGet (d ++ [(k, v)]) k = some v := by
  simp [dictGet, List.reverse_append]

lemma dictGet_isSome_mem {V : Type} (d : List (String × V)) (k : String)
    (h : (dictGet d k).isSome = true) : ∃ v, (k, v) ∈ d := by
  rw [dictGet] at h
  cases hf : d.reverse.find? (fun p => decide (p.1 = k)) with
  | none => rw [hf] at h; simp at h
  | some p =>
    have hmem : p ∈ d.reverse := List.mem_of_find?_eq_some hf
    have hpk : p.1 = k := by
      have := List.find?_some hf
      simpa using this
    exact ⟨p.2, by rw [← hpk]; exact List.mem_reverse.mp hmem⟩

lemma findSub_none_iff (sub : List Char) (cs : List Char) :
    findSub sub cs = none ↔ ∀ i, ¬ sub.isPrefixOf (cs.drop i) = true := by
  induction cs with
  | nil =>
    cases sub with
    | nil => simp [findSub, List.isPrefixOf]
    | cons s ss => simp [findSub, List.isPrefixOf]
  | cons c cs ih =>
    by_cases hp : sub.isPrefixOf (c :: cs) = true
    · constructor
      · intro h; rw [findSub] at h; simp [hp] at h
      · intro h; exact absurd hp (by simpa using h 0)
    · rw [findSub]
      simp only [hp, if_false, Bool.false_eq_true]
      constructor
      · intro h i
        cases i with
        | zero => simpa using hp
        | succ j =>
          have hnone : findSub sub cs = none := by
            cases hfs : findSub sub cs with
            | none => rfl
            | some m => rw [hfs] at h; simp at h
          exact (ih.mp hnone) j
      · intro h
        have hnone : findSub sub cs = none := ih.mpr (fun j => by simpa using h (j + 1))
        simp [hnone]

lemma findSub_some_first (sub : List Char) (cs : List Char) :
    ∀ i, findSub sub cs = some i →
      sub.isPrefixOf (cs.drop i) = true ∧
      ∀ j, j < i → ¬ sub.isPrefixOf (cs.drop j) = true := by
  induction cs with
  | nil =>
    intro i h
    cases sub with
    | nil =>
      simp only [findSub, List.isEmpty_nil, if_true, Option.some.injEq] at h
      subst h
      exact ⟨by simp [List.isPrefixOf], by omega⟩
    | cons s ss => simp [findSub] at h
  | cons c cs ih =>
    intro i h
    rw [findSub] at h
    by_cases hp : sub.isPrefixOf (c :: cs) = true
    · simp only [hp, if_true, Option.some.injEq] at h
      subst h
      exact ⟨by simpa using hp, by omega⟩
    · simp only [hp, if_false, Bool.false_eq_true] at h
      cases hfs : findSub sub cs with
      | none => rw [hfs] at h; simp at h
      | some m =>
        rw [hfs] at h
        simp at h
        subst h
        obtain ⟨h1, h2⟩ := ih m hfs
        refine ⟨by simpa using h1, ?_⟩
        intro j hj
        cases j with
        | zero => simpa using hp
        | succ j => simpa using h2 j (Nat.lt_of_succ_lt_succ hj)

instance : Std.Antisymm ((· : ℚ) ≤ ·) :=
  ⟨fun h h' => le_antisymm h h'⟩

/-! ### Claim theorems -/

/-- C2 (corrected): for every raw item name the normalizer produces
exactly six variants, in this priority order: (1) the raw string
unchanged, (2) the raw string with whitespace runs collapsed to single
spaces and ends trimmed, (3) that normalized variant lower-cased,
(4) the raw string with double quotes stripped from both ends, (5) the
raw string whitespace-trimmed and then quote-stripped, (6) the raw
string lower-cased and then whitespace-trimmed.  No upper-cased variant
is produced. -/
theorem C2_variant_list (item : String) :
    item_variants item =
      [ item,
        String.mk (collapseWs item.toList),
        pyLower (String.mk (collapseWs item.toList)),
        pyStripQuote item,
        pyStripQuote (pyStrip item),
        pyStrip (pyLower item) ] := by
  simp [item_variants, item_clean_eq_collapse]

/-- C2 fails as stated: for the raw name "Ab" the required sequence of
the claim (raw, normalized, normalized upper-cased, normalized
lower-cased, quote-stripped, trimmed-then-quote-stripped) differs from
what the source builds; in particular the upper-cased variant "AB" is
never produced. -/
theorem C2_counterexample :
    item_variants "Ab" ≠ spec_item_variants "Ab" ∧
    ¬ "AB" ∈ item_variants "Ab" := by decide

/-- C5 (corrected): the variant sequence is non-empty and its first
element is always the raw input itself, so normalizing any already
produced variant yields a sequence headed by that variant; but the
sequence is NOT deduplicated. -/
theorem C5_nonempty_head (item : String) :
    item_variants item ≠ [] ∧
    (item_variants item).head? = some item ∧
    (item_variants item).map (fun v => (item_variants v).head?) =
      (item_variants item).map (fun v => some v) := by
  exact ⟨by simp [item_variants], rfl, rfl⟩

/-- C5 fails as stated: the variant sequence of "a" is
["a","a","a","a","a","a"], which contains duplicates. -/
theorem C5_counterexample : ¬ (item_variants "a").Nodup := by decide

/-- C1 (corrected): when the window holds at least one valid value the
displayed percent change is `(last - first) / first * 100` and is
rendered even when `first = 0` (the source divides anyway; only the
total absence of valid values makes the figure absent), and
`calculate_price_change` returns the sentinel `0`, not an absence, when
fewer than two valid values exist; with first = 100 and last = 150 both
paths yield exactly 50. -/
theorem C1_percent_change (xs : List (Option ℚ)) :
    (display_percent_change xs = none ↔ xs.filterMap id = []) ∧
    (∀ s e, first_valid xs = some s → get_last_valid_price xs = some e →
      display_percent_change xs = some (((e - s) / s) * 100)) ∧
    (∀ s e, first_valid xs = some s → get_last_valid_price xs = some e →
      2 ≤ (xs.filterMap id).length →
      calculate_price_change xs = ((e - s) / s) * 100) ∧
    (¬ 2 ≤ (xs.filterMap id).length → calculate_price_change xs = 0) ∧
    calculate_price_change [some 100, some 150] = 50 ∧
    display_percent_change [some (100 : ℚ), some 150] = some 50 := by
  refine ⟨?_, ?_, ?_, ?_,
    by simp [calculate_price_change]; norm_num,
    by simp [display_percent_change, first_valid, get_last_valid_price]; norm_num⟩
  · cases h : xs.filterMap id with
    | nil =>
      simp [display_percent_change, first_valid, get_last_valid_price, h]
    | cons a l =>
      have h1 : first_valid xs = some a := by simp [first_valid, h]
      have h2 : (get_last_valid_price xs).isSome = true := by
        simp [get_last_valid_price, h, List.getLast?_isSome]
      obtain ⟨e, he⟩ := Option.isSome_iff_exists.mp h2
      simp [display_percent_change, h1, he, h]
  · intro s e hs he
    simp [display_percent_change, hs, he]
  · intro s e hs he hlen
    rw [first_valid] at hs
    rw [get_last_valid_price] at he
    simp only [calculate_price_change, if_pos hlen, List.headD_eq_head?_getD,
      List.getLastD_eq_getLast?, hs, he, Option.getD_some]
  · intro h
    simp [calculate_price_change, h]

/-- C1 witness: a concrete window with first valid value 2 and last
valid value 3 displays `((3 - 2) / 2) * 100`. -/
theorem C1_percent_change_witness :
    display_percent_change [some (2 : ℚ), none, some 3] =
      some ((((3 : ℚ) - 2) / 2) * 100) :=
  (C1_percent_change [some 2, none, some 3]).2.1 2 3 rfl rfl

/-- C1 fails as stated: with a single valid value the claim demands an
absent result, but `calculate_price_change` returns the number 0 and the
display path renders a figure; with first valid value 0 the claim
demands absence, but the display path still renders a figure (the
source's float division produces an infinity, not an absence). -/
theorem C1_counterexample :
    spec_percentChange [some 7] = none ∧
    display_percent_change [some 7] = some 0 ∧
    calculate_price_change [some 7] = 0 ∧
    spec_percentChange [some 0, some 5] = none ∧
    display_percent_change [some 0, some 5] ≠ none := by
  refine ⟨?_, ?_, ?_, ?_, ?_⟩
  · simp [spec_percentChange]
  · simp [display_percent_change, first_valid, get_last_valid_price]
  · simp [calculate_price_change]
  · simp [spec_percentChange, first_valid, get_last_valid_price]
  · simp [display_percent_change, first_valid, get_last_valid_price]

/-- C6 (confirmed): over a date-windowed column, `lastValid` is the last
non-gap cell scanning backward (absent when the window holds no non-gap
cell), `firstValid` is symmetric from the start, and min/max range over
all non-gap cells (absent when none); on the series [10, gap, gap, 20]
they give firstValid = 10, lastValid = 20, min = 10, max = 20. -/
theorem C6_window_stats (xs : List (Option ℚ)) :
    get_last_valid_price xs = lastValidScan xs ∧
    first_valid xs = firstValidScan xs ∧
    (get_last_valid_price xs = none ↔ xs.filterMap id = []) ∧
    (min_price xs = none ↔ xs.filterMap id = []) ∧
    (∀ v, min_price xs = some v →
      v ∈ xs.filterMap id ∧ ∀ w ∈ xs.filterMap id, v ≤ w) ∧
    (max_price xs = none ↔ xs.filterMap id = []) ∧
    (∀ v, max_price xs = some v →
      v ∈ xs.filterMap id ∧ ∀ w ∈ xs.filterMap id, w ≤ v) ∧
    (first_valid [some 10, none, none, some 20] = some 10 ∧
      get_last_valid_price [some 10, none, none, some 20] = some 20 ∧
      min_price [some 10, none, none, some 20] = some 10 ∧
      max_price [some 10, none, none, some 20] = some 20) := by
  refine ⟨getLast_filterMap_eq_scan xs, head_filterMap_eq_scan xs, ?_, ?_, ?_, ?_, ?_,
    rfl, rfl, ?_, ?_⟩
  · simp [get_last_valid_price]
  · simp [min_price]
  · intro v hv
    have h := (List.min?_eq_some_iff le_refl min_choice
      (fun _ _ _ => le_min_iff)).mp hv
    exact ⟨h.1, fun w hw => h.2 w hw⟩
  · simp [max_price]
  · intro v hv
    have h := (List.max?_eq_some_iff le_refl max_choice
      (fun _ _ _ => max_le_iff)).mp hv
    exact ⟨h.1, fun w hw => h.2 w hw⟩
  · show (List.min? [(10 : ℚ), 20]) = some 10
    rw [List.min?_cons']
    simp [min_eq_left (by norm_num : (10 : ℚ) ≤ 20)]
  · show (List.max? [(10 : ℚ), 20]) = some 20
    rw [List.max?_cons']
    simp [max_eq_right (by norm_num : (10 : ℚ) ≤ 20)]

/-- C6 witness: on [10, gap, gap, 20] the minimum 10 is a member of the
valid cells and bounds them from below. -/
theorem C6_window_stats_witness :
    (10 : ℚ) ∈ List.filterMap id [some (10 : ℚ), none, none, some 20] ∧
    ∀ w ∈ List.filterMap id [some (10 : ℚ), none, none, some 20], (10 : ℚ) ≤ w := by
  have h := (C6_window_stats [some 10, none, none, some 20]).2.2.2.2.1 10
    (C6_window_stats [some 10, none, none, some 20]).2.2.2.2.2.2.2.2.2.1
  exact h

/-- C7 (confirmed): the moving average is a trailing rolling mean over
`ma_period * observations_per_hour` consecutive rows, aligned
index-for-index with the filtered series; a position whose trailing
window is short of rows or contains a gap is absent, and a complete
all-valid trailing window yields the mean of its rows. -/
theorem C7_moving_average (p : Nat) (xs : List (Option ℚ)) :
    (rollingMean (ma_window p) xs).length = xs.length ∧
    (∀ i, i < xs.length → i + 1 < ma_window p →
      (rollingMean (ma_window p) xs)[i]? = some none) ∧
    (∀ i, i < xs.length → none ∈ windowSlice (ma_window p) i xs →
      (rollingMean (ma_window p) xs)[i]? = some none) ∧
    (∀ i, i < xs.length → ma_window p ≤ i + 1 →
      ¬ none ∈ windowSlice (ma_window p) i xs →
      (rollingMean (ma_window p) xs)[i]? =
        some (some (((windowSlice (ma_window p) i xs).filterMap id).sum /
          (ma_window p : ℚ)))) := by
  refine ⟨by simp [rollingMean], ?_, ?_, ?_⟩
  · intro i hi hshort
    rw [rollingMean_getElem _ _ _ hi, if_pos hshort]
  · intro i hi hgap
    rw [rollingMean_getElem _ _ _ hi]
    by_cases hshort : i + 1 < ma_window p
    · rw [if_pos hshort]
    · rw [if_neg hshort, (seqOpt_eq_none_iff _).mpr hgap]
  · intro i hi hlen hgap
    rw [rollingMean_getElem _ _ _ hi, if_neg (by omega), seqOpt_of_no_gap _ hgap]

/-- C7 witness: on the gap-free 10-row series 1..10 with a 4-row window
(`ma_period = 2` hours at 2 observations per hour), position 2 is absent
and position 3 carries the mean of rows 1-4, namely 5/2. -/
theorem C7_moving_average_witness :
    (rollingMean (ma_window 2) [some 1, some 2, some 3, some 4, some 5,
      some 6, some 7, some 8, some 9, some 10])[2]? = some none ∧
    (rollingMean (ma_window 2) [some 1, some 2, some 3, some 4, some 5,
      some 6, some 7, some 8, some 9, some 10])[3]? = some (some (5 / 2)) := by
  constructor
  · exact (C7_moving_average 2 _).2.1 2 (by norm_num)
      (by norm_num [ma_window, observations_per_hour])
  · have h := (C7_moving_average 2
        [some 1, some 2, some 3, some 4, some 5,
          some 6, some 7, some 8, some 9, some 10]).2.2.2 3 (by norm_num)
      (by norm_num [ma_window, observations_per_hour])
      (by simp [windowSlice, ma_window, observations_per_hour])
    rw [h]
    norm_num [windowSlice, ma_window, observations_per_hour, List.take_succ_cons,
      List.filterMap_cons, List.sum_cons]

/-- C3 (corrected): image resolution probes the ImageTable with the
normalizer variants in priority order — the first bound variant wins,
and a miss on every variant falls back to the configured default URL —
but supply resolution never probes variants: it reads the SupplyTable at
the raw item name only, with default 0.  Both are functions of the
tables and the item, hence deterministic. -/
theorem C3_reconciler (d : List (String × String)) (s : List (String × Int))
    (item : String) :
    ((∀ v ∈ item_variants item, dictGet d v = none) →
      lookup_img d item = default_img) ∧
    (∀ (i : Nat) (v u : String),
      (item_variants item)[i]? = some v → dictGet d v = some u →
      (∀ j, j < i → ∀ w, (item_variants item)[j]? = some w → dictGet d w = none) →
      lookup_img d item = u) ∧
    (dictGet s item = none → resolve_supply s item = 0) ∧
    (∀ n, dictGet s item = some n → resolve_supply s item = n) := by
  refine ⟨?_, ?_, ?_, ?_⟩
  · intro h
    have hnone : (item_variants item).findSome? (fun v => dictGet d v) = none :=
      List.findSome?_eq_none_iff.mpr h
    simp [lookup_img, hnone]
  · intro i v u hv hu hbefore
    have hfound := findSome?_of_first (item_variants item)
      (fun v => dictGet d v) i v u hv hu hbefore
    simp [lookup_img, hfound]
  · intro h; simp [resolve_supply, h]
  · intro n h; simp [resolve_supply, h]

/-- C3 witness: with the image table binding only the lower-cased
variant "ab", the item "Ab" resolves through its variant list to that
URL; with an empty table it falls back to the default URL. -/
theorem C3_reconciler_witness :
    lookup_img [("ab", "X")] "Ab" = "X" ∧
    lookup_img [] "Ab" = default_img := by
  constructor
  · refine (C3_reconciler [("ab", "X")] [] "Ab").2.1 2 "ab" "X" rfl rfl ?_
    intro j hj w hw
    have hj' : j = 0 ∨ j = 1 := by omega
    have hw' : w = "Ab" := by
      rcases hj' with rfl | rfl <;>
        exact Option.some.inj hw.symm
    subst hw'
    decide
  · exact (C3_reconciler [] [] "Ab").1 (fun v hv => rfl)

/-- C3 fails as stated: with a supply table binding only the variant
"ab", the claim's both-tables variant probing would resolve item "Ab" to
supply 7, but the source resolves supply by the raw name only and
reports 0. -/
theorem C3_counterexample :
    spec_resolve_supply [("ab", 7)] "Ab" = 7 ∧
    resolve_supply [("ab", 7)] "Ab" = 0 := by decide

/-- C4 (corrected): each auxiliary-source row yields at most one table
entry under its single raw key (for the image source, the trimmed text
before the scheme marker) — the loader never expands a key through the
Name Normalizer — and when two rows produce the same key the later row
in file order wins. -/
theorem C4_loader_insertion :
    (∀ (rows : List (String × Int)) (k : String) (v : Int),
      dictGet (load_supply_data (some (rows ++ [(k, v)]))) k = some v) ∧
    (∀ (hdr : String) (rest : List String) (line k u : String),
      processLine line = some (k, u) →
      dictGet (load_image_data (hdr :: (rest ++ [line]))) k = some u) ∧
    (∀ (hdr : String) (rest : List String) (k : String),
      (dictGet (load_image_data (hdr :: rest)) k).isSome = true →
      ∃ line ∈ rest, ∃ u, processLine line = some (k, u)) := by
  refine ⟨?_, ?_, ?_⟩
  · intro rows k v
    simpa [load_supply_data] using dictGet_append_last rows k v
  · intro hdr rest line k u h
    have heq : load_image_data (hdr :: (rest ++ [line])) =
        rest.filterMap processLine ++ [(k, u)] := by
      simp [load_image_data, List.filterMap_append, h]
    rw [heq]
    exact dictGet_append_last _ k u
  · intro hdr rest k h
    obtain ⟨v, hv⟩ := dictGet_isSome_mem _ _ h
    have hv' : (k, v) ∈ rest.filterMap processLine := hv
    obtain ⟨line, hline, hp⟩ := List.mem_filterMap.mp hv'
    exact ⟨line, hline, v, hp⟩

/-- C4 witness: of two image rows with the same key "B", the later one
determines the stored URL. -/
theorem C4_loader_insertion_witness :
    dictGet (load_image_data
      ["name,img", "B https://x/old.png", "B https://x/new.png"]) "B" =
      some "https://x/new.png" := by
  have h := C4_loader_insertion.2.1 "name,img" ["B https://x/old.png"]
    "B https://x/new.png" "B" "https://x/new.png" (by decide)
  simpa using h

/-- C4 fails as stated: "my item" is among the normalizer variants of
the raw key "My Item", yet after loading an image row for "My Item" the
table has no entry under "my item" — the loader stores only the raw
key. -/
theorem C4_counterexample :
    "my item" ∈ item_variants "My Item" ∧
    dictGet (load_image_data ["name,img", "My Item https://x/b.png"])
      "my item" = none := by decide

/-- C8 (confirmed): a missing supply file yields the empty SupplyTable,
every supply lookup then reports 0, and the per-item analytics are
produced for every price item exactly as with any other table. -/
theorem C8_missing_supply (cols : List (String × List (Option ℚ))) :
    load_supply_data none = [] ∧
    (∀ item : String, resolve_supply (load_supply_data none) item = 0) ∧
    (sidebar_entries cols (load_supply_data none)).map (fun e => e.1) =
      cols.map (fun p => p.1) ∧
    (sidebar_entries cols (load_supply_data none)).map (fun e => e.2.1) =
      cols.map (fun p => calculate_price_change p.2) ∧
    (sidebar_entries cols (load_supply_data none)).map (fun e => e.2.2) =
      cols.map (fun _ => 0) := by
  refine ⟨rfl, fun item => rfl, ?_, ?_, ?_⟩ <;>
    simp [sidebar_entries, load_supply_data, resolve_supply, dictGet,
      Function.comp_def, List.map_const']

/-- C9 (confirmed, cache modelled from the spec): starting from an empty
slot, the first read loads once; a second read within the TTL returns
the stored value unchanged with no further load; a second read at or
past the TTL performs exactly one fresh load whose result replaces the
entry. -/
theorem C9_cache_ttl {α : Type} (ttl : Nat) (loader : Nat → α) (t1 t2 : Nat) :
    (cacheRead ttl loader t1 none).2.2 = 1 ∧
    (t2 - t1 < ttl →
      cacheRead ttl loader t2 (some (cacheRead ttl loader t1 none).2.1) =
        ((cacheRead ttl loader t1 none).1,
          (cacheRead ttl loader t1 none).2.1, 0)) ∧
    (ttl ≤ t2 - t1 →
      cacheRead ttl loader t2 (some (cacheRead ttl loader t1 none).2.1) =
        (loader t2, ⟨loader t2, t2⟩, 1)) := by
  refine ⟨rfl, ?_, ?_⟩
  · intro h
    simp [cacheRead, h]
  · intro h
    simp [cacheRead, Nat.not_lt.mpr h]

/-- C9 witness: with a 60-second TTL, a read at time 30 after a load at
time 0 serves the cached value with zero loader calls. -/
theorem C9_cache_ttl_witness :
    cacheRead 60 (fun _ => (42 : ℚ)) 30
      (some (cacheRead 60 (fun _ => (42 : ℚ)) 0 none).2.1) =
      ((cacheRead 60 (fun _ => (42 : ℚ)) 0 none).1,
        (cacheRead 60 (fun _ => (42 : ℚ)) 0 none).2.1, 0) :=
  (C9_cache_ttl 60 (fun _ => (42 : ℚ)) 0 30).2.1 (by norm_num)

/-- C10 (confirmed): the image loader recognises a URL only by the
literal marker "https://": a post-header line containing it is split at
its FIRST occurrence — key = trimmed text before, URL = trimmed
remainder — and a line without it anywhere (any other scheme included)
contributes nothing and never fails the load; concretely an "http://"
row is skipped while the "https://" row beside it loads. -/
theorem C10_image_loader :
    (∀ (hdr line : String) (pre post : List String),
      findSub httpsChars line.toList = none →
      load_image_data (hdr :: (pre ++ line :: post)) =
        load_image_data (hdr :: (pre ++ post))) ∧
    (∀ line : String, processLine line = none ↔
      ∀ i, ¬ httpsChars.isPrefixOf (line.toList.drop i) = true) ∧
    (∀ (line : String) (i : Nat), findSub httpsChars line.toList = some i →
      httpsChars.isPrefixOf (line.toList.drop i) = true ∧
      (∀ j, j < i → ¬ httpsChars.isPrefixOf (line.toList.drop j) = true) ∧
      processLine line =
        some (String.mk (stripChars isPySpace (line.toList.take i)),
          String.mk (stripChars isPySpace (line.toList.drop i)))) ∧
    load_image_data
      ["name,img", "Item A http://x/a.png", "Item B https://x/b.png"] =
      [("Item B", "https://x/b.png")] := by
  refine ⟨?_, ?_, ?_, by decide⟩
  · intro hdr line pre post h
    have hnone : processLine line = none := by
      unfold processLine
      rw [h]
    simp [load_image_data, List.filterMap_append, List.filterMap_cons, hnone]
  · intro line
    have hiff : processLine line = none ↔ findSub httpsChars line.toList = none := by
      unfold processLine
      cases hfs : findSub httpsChars line.toList with
      | none => simp [hfs]
      | some m => simp [hfs]
    rw [hiff, findSub_none_iff]
  · intro line i h
    obtain ⟨h1, h2⟩ := findSub_some_first httpsChars line.toList i h
    refine ⟨h1, h2, ?_⟩
    unfold processLine
    rw [h]

/-- C10 witness: a line whose URL uses the "http://" scheme is skipped:
removing it leaves the loaded table unchanged. -/
theorem C10_image_loader_witness :
    load_image_data ["name,img", "skip http://x/a.png", "K https://x/u.png"] =
      load_image_data ["name,img", "K https://x/u.png"] := by
  have h := C10_image_loader.1 "name,img" "skip http://x/a.png" []
    ["K https://x/u.png"] (by decide)
  simpa using h

end Market
